import Mathlib

/-!
Verification of the TCDB preprocessing pipeline core against its
natural-language specification.

The development shallowly embeds the algorithmic core of the repository:

* `Domain`    — the `Domain` dataclass of `src/core/domain.py`;
* `is_overlap`, `score_domain` — `src/utils/file_utils.py`;
* `DomTuple`, `merge_overlapping_domains` — the 6-tuple domain records and
  the merge routine of `src/utils/file_utils.py`;
* `fill_holes` — `System.fill_holes` of `src/core/system.py`;
* `resolve_domain` — the re-resolution pass of
  `RescueFamily.filter_domains` (`src/core/rescue_family.py`, the loop that
  rewrites `sys.domains[i]` against the globally ranked identity list);
* `confidence_interval_mean` — `src/utils/file_utils.py`.

Machine floats are embedded as exact rationals (ℚ) where the code only
compares, adds and divides, and as reals (ℝ) where it takes logarithms.
Python's stable `sorted(key=lambda x: x.start)` is embedded as
`List.insertionSort` with the non-strict key comparison, which computes
the same stable sort.
-/

namespace TCDB

/-- The `Domain` dataclass (`src/core/domain.py`): identifier, 1-based
inclusive interval, bitscore, coverage fraction, optional e-value, a
`type` tag (`"domain"` or `"hole"`) and an optional rescue round.
(`end` is a Lean keyword, so the field is named `end_`.) -/
structure Domain where
  dom_id : String
  start : Int
  end_ : Int
  bitscore : ℚ
  coverage : ℚ
  evalue : Option ℚ := none
  type : String := "domain"
  rescue_round : Option Int := none
deriving DecidableEq

/-- Embedding of `is_overlap` (`src/utils/file_utils.py`, lines 405–434).
The source
binds `overlap_start = max(start, start)`, `overlap_end = min(end, end)`,
returns `False` when `overlap_start >= overlap_end`, and otherwise tests
`(overlap_end - overlap_start) / min(end1-start1, end2-start2) >=
mutual_overlap` (the locals are inlined here). -/
def is_overlap (dom1 dom2 : Domain) (mutual_overlap : ℚ := 1/5) : Bool :=
  if max dom1.start dom2.start ≥ min dom1.end_ dom2.end_ then
    false
  else
    decide (((min dom1.end_ dom2.end_ - max dom1.start dom2.start : Int) : ℚ) /
      ((min (dom1.end_ - dom1.start) (dom2.end_ - dom2.start) : Int) : ℚ) ≥ mutual_overlap)

/-- The raw overlap amount `min(end,end) − max(start,start)` of two
domains, as computed inside `is_overlap`. -/
def rawOverlap (dom1 dom2 : Domain) : Int :=
  min dom1.end_ dom2.end_ - max dom1.start dom2.start

/-- C5: `is_overlap` returns `false` when the raw overlap
`min(A.end,B.end) − max(A.start,B.start)` is ≤ 0, and otherwise returns
`true` exactly when the raw overlap divided by the shorter exclusive
length `min(A.end−A.start, B.end−B.start)` is at least the threshold;
moreover `is_overlap([1,100],[50,150])` at threshold 0.2 is `true` and
`is_overlap([1,100],[200,300])` is `false`. -/
theorem c5_is_overlap_characterization (dom1 dom2 : Domain) (t : ℚ) :
    (rawOverlap dom1 dom2 ≤ 0 → is_overlap dom1 dom2 t = false) ∧
    (0 < rawOverlap dom1 dom2 →
      (is_overlap dom1 dom2 t = true ↔
        t ≤ (rawOverlap dom1 dom2 : ℚ) /
          ((min (dom1.end_ - dom1.start) (dom2.end_ - dom2.start) : Int) : ℚ))) ∧
    (is_overlap ⟨"A", 1, 100, 0, 0, none, "domain", none⟩
        ⟨"B", 50, 150, 0, 0, none, "domain", none⟩ (1/5) = true) ∧
    (is_overlap ⟨"A", 1, 100, 0, 0, none, "domain", none⟩
        ⟨"C", 200, 300, 0, 0, none, "domain", none⟩ (1/5) = false) := by
  refine ⟨?_, ?_, ?_, ?_⟩
  · intro h
    unfold rawOverlap at h
    unfold is_overlap
    rw [if_pos (by omega)]
  · intro h
    unfold rawOverlap at h
    unfold is_overlap
    rw [if_neg (by omega)]
    rw [decide_eq_true_eq, ge_iff_le, rawOverlap]
  · norm_num [is_overlap]
  · norm_num [is_overlap]

/-- C5 witness: the characterization applied to a concrete disjoint pair,
whose raw overlap is negative. -/
theorem c5_witness :
    is_overlap ⟨"X", 10, 20, 0, 0, none, "domain", none⟩
      ⟨"Y", 30, 40, 0, 0, none, "domain", none⟩ (1/5) = false :=
  (c5_is_overlap_characterization
    ⟨"X", 10, 20, 0, 0, none, "domain", none⟩
    ⟨"Y", 30, 40, 0, 0, none, "domain", none⟩ (1/5)).1 (by decide)

/-- C10: for domains with `start ≤ end`, if the shorter exclusive length
is zero then the no-overlap early branch is taken (the overlap interval is
empty), so `is_overlap` is `false` and the division is never reached. -/
theorem c10_is_overlap_total (dom1 dom2 : Domain) (t : ℚ)
    (h1 : dom1.start ≤ dom1.end_) (h2 : dom2.start ≤ dom2.end_)
    (hmin : min (dom1.end_ - dom1.start) (dom2.end_ - dom2.start) = 0) :
    min dom1.end_ dom2.end_ ≤ max dom1.start dom2.start ∧
      is_overlap dom1 dom2 t = false := by
  have hbranch : min dom1.end_ dom2.end_ ≤ max dom1.start dom2.start := by
    rcases min_eq_iff.mp hmin with ⟨h0, _⟩ | ⟨h0, _⟩ <;>
      simp only [le_max_iff, min_le_iff] <;> omega
  refine ⟨hbranch, ?_⟩
  unfold is_overlap
  rw [if_pos (by omega)]

/-- The value `-np.log(e)` as used in `score_domain`
(`src/utils/file_utils.py`, lines 378–403): finite for a positive
argument; `np.log` yields `-inf` at `0` and `nan` for negative input, both
of which the source maps to the sentinel, so they are embedded as `none`. -/
noncomputable def np_neg_log (e : ℚ) : Option ℝ :=
  if 0 < e then some (-Real.log (e : ℝ)) else none

/-- Embedding of `score_domain` (`src/utils/file_utils.py`, lines 378–403):
`(domain.end - domain.start / protein_length) * nlog`, where `nlog` is
`1000000` when the e-value is `None`, and otherwise `-np.log(evalue)`
unless that is infinite or `nan`, in which case it is again `1000000`. -/
noncomputable def score_domain (domain : Domain) (protein_length : ℝ) : ℝ :=
  match domain.evalue with
  | none => ((domain.end_ : ℝ) - (domain.start : ℝ) / protein_length) * 1000000
  | some e =>
    match np_neg_log e with
    | some nlog => ((domain.end_ : ℝ) - (domain.start : ℝ) / protein_length) * nlog
    | none => ((domain.end_ : ℝ) - (domain.start : ℝ) / protein_length) * 1000000

/-- C6: for a valid positive e-value, `score_domain` returns
`(end − start/protein_length) · (−ln evalue)`; for a missing, zero or
negative (invalid) e-value, the `−ln` factor is replaced by the constant
`1000000` and the function still returns a value (it is total). -/
theorem c6_score_domain_characterization (domain : Domain) (protein_length : ℝ) :
    (∀ e : ℚ, domain.evalue = some e → 0 < e →
      score_domain domain protein_length =
        ((domain.end_ : ℝ) - (domain.start : ℝ) / protein_length) * (-Real.log (e : ℝ))) ∧
    (domain.evalue = none ∨ (∃ e : ℚ, domain.evalue = some e ∧ e ≤ 0) →
      score_domain domain protein_length =
        ((domain.end_ : ℝ) - (domain.start : ℝ) / protein_length) * 1000000) := by
  constructor
  · intro e he hpos
    simp only [score_domain, he, np_neg_log, if_pos hpos]
  · rintro (he | ⟨e, he, hle⟩)
    · simp only [score_domain, he]
    · simp only [score_domain, he, np_neg_log, if_neg (not_lt.mpr hle)]

/-- C6 witness: the characterization applied to a concrete domain with
e-value 1 (positive branch). -/
theorem c6_witness :
    score_domain ⟨"D", 10, 80, 0, 0, some 1, "domain", none⟩ 200 =
      ((80 : ℝ) - (10 : ℝ) / 200) * (-Real.log ((1 : ℚ) : ℝ)) :=
  (c6_score_domain_characterization
    ⟨"D", 10, 80, 0, 0, some 1, "domain", none⟩ 200).1 1 rfl (by decide)

/-- C10 witness: a single-residue domain against an enclosing one. -/
theorem c10_witness :
    is_overlap ⟨"P", 5, 5, 0, 0, none, "domain", none⟩
      ⟨"Q", 1, 10, 0, 0, none, "domain", none⟩ (1/5) = false :=
  (c10_is_overlap_total ⟨"P", 5, 5, 0, 0, none, "domain", none⟩
    ⟨"Q", 1, 10, 0, 0, none, "domain", none⟩ (1/5)
    (by decide) (by decide) (by decide)).2

/-! ## Embedding of `merge_overlapping_domains` (`src/utils/file_utils.py`, lines 155–209)

The function operates on 6-tuples `(start, end, id, bitscore, evalue,
rescue_round)`; the legacy 4-tuple branch (`len(domain_tuple) != 6`) is
unreachable for inputs of the annotated signature and is not modelled. -/

/-- A domain 6-tuple `(start, end, id, bitscore, evalue, rescue_round)`
as consumed by `merge_overlapping_domains`. -/
structure DomTuple where
  start : Int
  end_ : Int
  dom_id : String
  bitscore : ℚ
  evalue : Option ℚ
  rescue_round : Option Int
deriving DecidableEq

/-- The e-value update of the merge branch: both the incoming and the
incumbent value are coerced from `None` to `0.0`, and the incumbent slot
is overwritten with the coerced incoming value when
`evalue < current_evalue or current_evalue == 0.0`. -/
def mergeEvalue (cur inc : Option ℚ) : Option ℚ :=
  if inc.getD 0 < cur.getD 0 ∨ cur.getD 0 = 0 then some (inc.getD 0) else cur

/-- One merge step: `current[1] = max(current[1], end)`,
`current[3] = max(current[3], bitscore)`, e-value updated by
`mergeEvalue`; `start`, `dom_id` and `rescue_round` keep the incumbent's
values. -/
def mergeHits (current d : DomTuple) : DomTuple :=
  { current with
      end_ := max current.end_ d.end_
      bitscore := max current.bitscore d.bitscore
      evalue := mergeEvalue current.evalue d.evalue }

/-- The scan of `merge_overlapping_domains`: the accumulator `current` is
merged with the next tuple when it has the same id and
`start <= current[1] + 1`, and is otherwise emitted and replaced. -/
def mergeLoop (current : DomTuple) : List DomTuple → List DomTuple
  | [] => [current]
  | d :: ds =>
    if d.dom_id = current.dom_id ∧ d.start ≤ current.end_ + 1 then
      mergeLoop (mergeHits current d) ds
    else
      current :: mergeLoop d ds

/-- Sorting by start, `sorted(domains, key=lambda x: x[0])`: Python's
stable sort, embedded as insertion sort with the non-strict key order. -/
def byStart (a b : DomTuple) : Prop := a.start ≤ b.start

instance : DecidableRel byStart := fun a b => Int.decLe a.start b.start

instance : IsTotal DomTuple byStart := ⟨fun a b => Int.le_total a.start b.start⟩

instance : IsTrans DomTuple byStart := ⟨fun _ _ _ h1 h2 => le_trans h1 h2⟩

/-- Embedding of `sorted(domains, key=lambda x: x[0])`. -/
def sortByStart (l : List DomTuple) : List DomTuple := l.insertionSort byStart

/-- Embedding of `merge_overlapping_domains` (`src/utils/file_utils.py`,
lines 155–209). -/
def merge_overlapping_domains (domains : List DomTuple) : List DomTuple :=
  match sortByStart domains with
  | [] => []
  | d :: ds => mergeLoop d ds

/-- C2 counterexample: hits `A[1,10]` and `A[5,15]` share an identity and
overlap, yet with `B[2,3]` interleaved between them in start order the
scan accumulator is reset and the two `A` hits survive unmerged — the
output has three entries, not the two the claim requires. -/
theorem c2_counterexample :
    merge_overlapping_domains
        [⟨1, 10, "A", 5, none, none⟩, ⟨2, 3, "B", 5, none, none⟩,
          ⟨5, 15, "A", 5, none, none⟩] =
      [⟨1, 10, "A", 5, none, none⟩, ⟨2, 3, "B", 5, none, none⟩,
        ⟨5, 15, "A", 5, none, none⟩] ∧
    (DomTuple.dom_id ⟨1, 10, "A", 5, none, none⟩ =
      DomTuple.dom_id ⟨5, 15, "A", 5, none, none⟩) ∧
    (DomTuple.start ⟨5, 15, "A", 5, none, none⟩ ≤
      DomTuple.end_ ⟨1, 10, "A", 5, none, none⟩ + 1) := by
  refine ⟨?_, rfl, by decide⟩
  decide

/-- Adjacent output entries of the merge scan: ordered by start and not
themselves mergeable (different identity, or separated by more than one
residue). -/
def scanSeparated (a b : DomTuple) : Prop :=
  a.start ≤ b.start ∧ ¬(b.dom_id = a.dom_id ∧ b.start ≤ a.end_ + 1)

/-- The scan output is nonempty and its head keeps the accumulator's
`start` and `dom_id`. -/
theorem mergeLoop_head_fields (ds : List DomTuple) : ∀ c : DomTuple,
    ∃ e tl, mergeLoop c ds = e :: tl ∧ e.start = c.start ∧ e.dom_id = c.dom_id := by
  induction ds with
  | nil => exact fun c => ⟨c, [], rfl, rfl, rfl⟩
  | cons d ds ih =>
    intro c
    by_cases h : d.dom_id = c.dom_id ∧ d.start ≤ c.end_ + 1
    · obtain ⟨e, tl, heq, hs, hid⟩ := ih (mergeHits c d)
      exact ⟨e, tl, by rw [mergeLoop, if_pos h, heq], hs, hid⟩
    · exact ⟨c, mergeLoop d ds, by rw [mergeLoop, if_neg h], rfl, rfl⟩

/-- The scan emits at most one entry per input entry. -/
theorem mergeLoop_length (ds : List DomTuple) : ∀ c : DomTuple,
    (mergeLoop c ds).length ≤ ds.length + 1 := by
  induction ds with
  | nil => intro c; simp [mergeLoop]
  | cons d ds ih =>
    intro c
    by_cases h : d.dom_id = c.dom_id ∧ d.start ≤ c.end_ + 1
    · rw [mergeLoop, if_pos h]
      exact le_trans (ih (mergeHits c d)) (by simp)
    · rw [mergeLoop, if_neg h]
      simpa using ih d

/-- On a start-sorted input the scan's output is a chain of separated,
start-ordered entries. -/
theorem mergeLoop_chain (ds : List DomTuple) : ∀ c : DomTuple,
    List.Sorted byStart (c :: ds) → List.Chain' scanSeparated (mergeLoop c ds) := by
  induction ds with
  | nil => intro c _; simp [mergeLoop]
  | cons d ds ih =>
    intro c hs
    rw [List.sorted_cons] at hs
    by_cases h : d.dom_id = c.dom_id ∧ d.start ≤ c.end_ + 1
    · rw [mergeLoop, if_pos h]
      apply ih (mergeHits c d)
      rw [List.sorted_cons]
      refine ⟨fun b hb => hs.1 b (List.mem_cons_of_mem _ hb), ?_⟩
      rw [List.sorted_cons] at hs
      exact hs.2.2
    · rw [mergeLoop, if_neg h]
      obtain ⟨e, tl, heq, hstart, hid⟩ := mergeLoop_head_fields ds d
      rw [heq, List.chain'_cons]
      refine ⟨⟨?_, ?_⟩, ?_⟩
      · show c.start ≤ e.start
        rw [hstart]
        exact hs.1 d (List.mem_cons_self d ds)
      · rw [hstart, hid]
        exact h
      · rw [← heq]
        exact ih d hs.2

/-- A residue position `p` is covered by some entry of the list. -/
def covers (l : List DomTuple) (p : Int) : Prop :=
  ∃ h ∈ l, h.start ≤ p ∧ p ≤ h.end_

theorem covers_cons {a : DomTuple} {l : List DomTuple} {p : Int} :
    covers (a :: l) p ↔ (a.start ≤ p ∧ p ≤ a.end_) ∨ covers l p := by
  simp [covers, List.mem_cons, or_and_right, exists_or, exists_eq_left]

/-- On a start-sorted input the scan preserves the union of covered
residue positions. -/
theorem mergeLoop_covers (ds : List DomTuple) : ∀ (c : DomTuple) (p : Int),
    List.Sorted byStart (c :: ds) →
      (covers (mergeLoop c ds) p ↔ covers (c :: ds) p) := by
  induction ds with
  | nil => intro c p _; rw [mergeLoop]
  | cons d ds ih =>
    intro c p hs
    rw [List.sorted_cons] at hs
    have hcd : c.start ≤ d.start := hs.1 d (List.mem_cons_self d ds)
    by_cases h : d.dom_id = c.dom_id ∧ d.start ≤ c.end_ + 1
    · rw [mergeLoop, if_pos h]
      have hsorted : List.Sorted byStart (mergeHits c d :: ds) := by
        rw [List.sorted_cons]
        refine ⟨fun b hb => hs.1 b (List.mem_cons_of_mem _ hb), ?_⟩
        rw [List.sorted_cons] at hs
        exact hs.2.2
      rw [ih (mergeHits c d) p hsorted, covers_cons, covers_cons, covers_cons]
      have hend : (mergeHits c d).end_ = max c.end_ d.end_ := rfl
      have hst : (mergeHits c d).start = c.start := rfl
      rw [hend, hst]
      constructor
      · rintro (⟨h1, h2⟩ | hc)
        · by_cases hp : p ≤ c.end_
          · exact Or.inl ⟨h1, hp⟩
          · exact Or.inr (Or.inl ⟨by omega, by omega⟩)
        · exact Or.inr (Or.inr hc)
      · rintro (⟨h1, h2⟩ | ⟨h1, h2⟩ | hc)
        · exact Or.inl ⟨h1, by omega⟩
        · exact Or.inl ⟨by omega, by omega⟩
        · exact Or.inr hc
    · rw [mergeLoop, if_neg h, covers_cons, covers_cons, ih d p hs.2]

/-- Permuting a list does not change which positions it covers. -/
theorem covers_perm {l l' : List DomTuple} (hp : l.Perm l') (p : Int) :
    covers l p ↔ covers l' p := by
  unfold covers
  constructor <;> rintro ⟨h, hm, hcov⟩
  · exact ⟨h, hp.mem_iff.mp hm, hcov⟩
  · exact ⟨h, hp.mem_iff.mpr hm, hcov⟩

/-- C2 (amended): the merge scan only consolidates same-identity
overlapping-or-adjacent hits that are consecutive in start-sorted order —
an interleaved hit of a different identity resets the accumulator and the
separated same-identity hits survive unmerged.  The output is sorted by
start, no two adjacent output entries are themselves mergeable, and empty
input yields empty output. -/
theorem c2_merge_scan_properties (domains : List DomTuple) :
    List.Sorted byStart (merge_overlapping_domains domains) ∧
    List.Chain' scanSeparated (merge_overlapping_domains domains) ∧
    (domains = [] → merge_overlapping_domains domains = []) := by
  have hchain : List.Chain' scanSeparated (merge_overlapping_domains domains) := by
    unfold merge_overlapping_domains
    rcases hsort : sortByStart domains with _ | ⟨d, ds⟩
    · simp
    · apply mergeLoop_chain
      rw [← hsort]
      exact List.sorted_insertionSort byStart domains
  refine ⟨?_, hchain, ?_⟩
  · have : List.Chain' byStart (merge_overlapping_domains domains) :=
      hchain.imp fun _ _ hab => hab.1
    rw [List.chain'_iff_pairwise] at this
    exact this
  · intro h
    subst h
    rfl

/-- C2 witness: the amended theorem applied at the empty input, using its
empty-input clause. -/
theorem c2_witness : merge_overlapping_domains [] = [] :=
  (c2_merge_scan_properties []).2.2 rfl

/-- C4: the merged output never has more entries than the input, and the
union of residue positions covered by the output equals the union covered
by the input. -/
theorem c4_merge_length_and_coverage (domains : List DomTuple) (p : Int) :
    (merge_overlapping_domains domains).length ≤ domains.length ∧
      (covers (merge_overlapping_domains domains) p ↔ covers domains p) := by
  have hperm := List.perm_insertionSort byStart domains
  constructor
  · unfold merge_overlapping_domains
    rcases hsort : sortByStart domains with _ | ⟨d, ds⟩
    · simp
    · calc (mergeLoop d ds).length ≤ ds.length + 1 := mergeLoop_length ds d
        _ = (sortByStart domains).length := by rw [hsort]; rfl
        _ = domains.length := by
            unfold sortByStart
            exact hperm.length_eq
  · unfold merge_overlapping_domains
    rcases hsort : sortByStart domains with _ | ⟨d, ds⟩
    · have : domains = [] := by
        have := hperm.length_eq
        unfold sortByStart at hsort
        rw [hsort] at this
        exact List.length_eq_zero.mp this.symm
      rw [this]
    · have hsorted : List.Sorted byStart (d :: ds) := by
        rw [← hsort]
        exact List.sorted_insertionSort byStart domains
      rw [mergeLoop_covers ds d p hsorted]
      apply covers_perm
      rw [← hsort]
      exact hperm

/-- C3: evaluating the merge at the failing input.  Merging same-identity
hits `(1,50,A,10,1e-5,None)` and `(45,80,A,12,None,None)`: the incoming
missing e-value is coerced to `0.0`, and since `0.0 < 1e-5` it overwrites
the incumbent's real e-value — the merged hit carries the worst-case
sentinel `0.0` instead of `1e-5`. -/
theorem c3_sentinel_overrides_real_evalue :
    merge_overlapping_domains
        [⟨1, 50, "A", 10, some (1/100000), none⟩, ⟨45, 80, "A", 12, none, none⟩] =
      [⟨1, 80, "A", 12, some 0, none⟩] := by
  norm_num [merge_overlapping_domains, sortByStart, List.insertionSort,
    List.orderedInsert, byStart, mergeLoop, mergeHits, mergeEvalue]

/-! ## Embedding of `System.fill_holes` (`src/core/system.py`, lines 188–236)

The method reads `self.sys_len` and rewrites `self.domains`; it is
embedded as a function of the length and the domain list.  The source
computes each gap's coverage inline: the leading gap and the trailing gap
use `(end - start) / sys_len`, the interior gaps use
`(curr_start - prev_end - 1) / sys_len` (the inclusive length of the gap
`[prev_end+1, curr_start-1]`), each guarded by `sys_len > 0`. -/

/-- The hole `Domain("-1", start, end, -1, coverage, type="hole")`
constructed by `fill_holes`. -/
def holeDomain (s e : Int) (cov : ℚ) : Domain :=
  ⟨"-1", s, e, -1, cov, none, "hole", none⟩

/-- Start-order for `Domain` (`sorted(..., key=lambda x: x.start)`). -/
def byStartD (a b : Domain) : Prop := a.start ≤ b.start

instance : DecidableRel byStartD := fun a b => Int.decLe a.start b.start

instance : IsTotal Domain byStartD := ⟨fun a b => Int.le_total a.start b.start⟩

instance : IsTrans Domain byStartD := ⟨fun _ _ _ h1 h2 => le_trans h1 h2⟩

/-- Python's stable sort by `start` on `Domain` lists. -/
def sortDomains (l : List Domain) : List Domain := l.insertionSort byStartD

/-- The loop of `fill_holes` from the second domain on, plus the trailing
gap: between `prev` and the next domain a gap `[prev.end+1, start-1]` with
coverage `(start - prev.end - 1)/sys_len` is inserted whenever
`prev.end + 1 < start`; after the last domain a gap
`[last.end+1, sys_len-1]` with coverage `(end - start)/sys_len` is
appended whenever `last.end < sys_len - 1`. -/
def gapsAfter (L : Int) (prev : Domain) : List Domain → List Domain
  | [] =>
    if prev.end_ < L - 1 then
      [holeDomain (prev.end_ + 1) (L - 1)
        (if 0 < L then (((L - 1) - (prev.end_ + 1) : Int) : ℚ) / (L : ℚ) else 0)]
    else []
  | d :: ds =>
    (if prev.end_ + 1 < d.start then
      [holeDomain (prev.end_ + 1) (d.start - 1)
        (if 0 < L then ((d.start - prev.end_ - 1 : Int) : ℚ) / (L : ℚ) else 0)]
    else []) ++ d :: gapsAfter L d ds

/-- The body of `fill_holes` on the already filtered and sorted list:
with no domains the whole protein becomes one gap `[0, sys_len-1]`;
otherwise a leading gap `[0, first.start-1]` is emitted when
`first.start > 0`, both with coverage `(end - start)/sys_len`. -/
def fill_from (L : Int) : List Domain → List Domain
  | [] =>
    [holeDomain 0 (L - 1) (if 0 < L then (((L - 1) - 0 : Int) : ℚ) / (L : ℚ) else 0)]
  | d :: ds =>
    (if 0 < d.start then
      [holeDomain 0 (d.start - 1)
        (if 0 < L then (((d.start - 1) - 0 : Int) : ℚ) / (L : ℚ) else 0)]
    else []) ++ d :: gapsAfter L d ds

/-- Embedding of `System.fill_holes`: filter out existing holes, sort by
start, then
interleave the gap domains. -/
def fill_holes (L : Int) (domains : List Domain) : List Domain :=
  fill_from L (sortDomains (domains.filter (fun d => d.type != "hole")))

/-- C7 counterexample: for a length-100 protein with the single domain
`[10,20]`, the leading gap `[0,9]` is emitted with coverage `9/100`
(exclusive length over length) and the trailing gap `[21,99]` with
coverage `78/100`, while the claim's inclusive-length formula demands
`10/100` and `79/100`. -/
theorem c7_counterexample :
    fill_holes 100 [⟨"A", 10, 20, 1, 11/100, none, "domain", none⟩] =
      [holeDomain 0 9 (9/100),
        ⟨"A", 10, 20, 1, 11/100, none, "domain", none⟩,
        holeDomain 21 99 (78/100)] ∧
      (9 : ℚ)/100 ≠ ((9 : Int) - 0 + 1 : Int) / (100 : ℚ) := by
  constructor
  · norm_num [fill_holes, sortDomains, List.insertionSort, List.orderedInsert,
      fill_from, gapsAfter, holeDomain]
  · norm_num

/-- Modelled from the spec's words as amended for C7: walking the sorted
domain list, a gap `[prev.end+1, next.start-1]` is emitted between each
adjacent pair with `prev.end + 1 < next.start`, carrying inclusive-length
coverage `(end - start + 1)/protein_length`; after the last domain a gap
`[last.end+1, protein_length-1]` is emitted when
`last.end < protein_length - 1`, carrying coverage
`(end - start)/protein_length`; coverage is forced to 0 when the protein
length is non-positive. -/
def trailWalkSpec (L : Int) (prev : Domain) : List Domain → List Domain
  | [] =>
    if prev.end_ < L - 1 then
      [holeDomain (prev.end_ + 1) (L - 1)
        (if 0 < L then ((L - 1 : Int) - (prev.end_ + 1) : ℚ) / (L : ℚ) else 0)]
    else []
  | d :: ds =>
    (if prev.end_ + 1 < d.start then
      [holeDomain (prev.end_ + 1) (d.start - 1)
        (if 0 < L then (((d.start - 1 : Int) - (prev.end_ + 1) + 1 : Int) : ℚ) / (L : ℚ) else 0)]
    else []) ++ d :: trailWalkSpec L d ds

/-- Modelled from the spec's words as amended for C7: on an empty domain
set the whole protein `[0, protein_length-1]` is one gap; otherwise a
leading gap `[0, first.start-1]` is emitted when `first.start > 0`; both
carry coverage `(end - start)/protein_length` (exclusive length), forced
to 0 when the protein length is non-positive. -/
def fill_holes_spec (L : Int) : List Domain → List Domain
  | [] =>
    [holeDomain 0 (L - 1) (if 0 < L then ((L - 1 : Int) - (0 : Int) : ℚ) / (L : ℚ) else 0)]
  | d :: ds =>
    (if 0 < d.start then
      [holeDomain 0 (d.start - 1)
        (if 0 < L then ((d.start - 1 : Int) - (0 : Int) : ℚ) / (L : ℚ) else 0)]
    else []) ++ d :: trailWalkSpec L d ds

theorem gapsAfter_eq_trailWalkSpec (L : Int) (ds : List Domain) :
    ∀ prev : Domain, gapsAfter L prev ds = trailWalkSpec L prev ds := by
  induction ds with
  | nil =>
    intro prev
    unfold gapsAfter trailWalkSpec
    split
    · congr 1
      split
      · congr 1
        push_cast
        ring
      · rfl
    · rfl
  | cons d ds ih =>
    intro prev
    unfold gapsAfter trailWalkSpec
    rw [ih d]
    congr 1
    split
    · congr 2
      split
      · congr 1
        push_cast
        ring
      · rfl
    · rfl

/-- C7 (amended): on a start-sorted, hole-free domain list, `fill_holes`
emits exactly the leading, interior and trailing gaps of the claim, where
the interior gaps carry inclusive-length coverage
`(end − start + 1)/protein_length` but the leading and trailing gaps
carry `(end − start)/protein_length` (one residue less than the claim's
inclusive formula), all guarded to 0 for a non-positive protein
length. -/
theorem c7_fill_holes_amended (L : Int) (doms : List Domain)
    (hn : ∀ d ∈ doms, d.type ≠ "hole") (hs : List.Sorted byStartD doms) :
    fill_holes L doms = fill_holes_spec L doms := by
  unfold fill_holes
  have hfilter : doms.filter (fun d => d.type != "hole") = doms := by
    rw [List.filter_eq_self]
    intro d hd
    simpa using hn d hd
  rw [hfilter]
  unfold sortDomains
  rw [hs.insertionSort_eq]
  have hcov : ∀ s : Int, (if 0 < L then ((s - 0 : Int) : ℚ) / (L : ℚ) else 0) =
      (if 0 < L then ((s : Int) - (0 : Int) : ℚ) / (L : ℚ) else 0) := by
    intro s
    split
    · push_cast
      ring
    · rfl
  cases doms with
  | nil =>
    simp only [fill_from, fill_holes_spec]
    rw [hcov (L - 1)]
  | cons d ds =>
    simp only [fill_from, fill_holes_spec]
    rw [gapsAfter_eq_trailWalkSpec, hcov (d.start - 1)]

/-- C7 witness: the amended characterization applied to the concrete
single-domain protein of length 100. -/
theorem c7_witness :
    fill_holes 100 [⟨"A", 10, 20, 1, 11/100, none, "domain", none⟩] =
      fill_holes_spec 100 [⟨"A", 10, 20, 1, 11/100, none, "domain", none⟩] :=
  c7_fill_holes_amended 100 [⟨"A", 10, 20, 1, 11/100, none, "domain", none⟩]
    (by decide) (List.sorted_singleton _)

/-- Filtering gap domains back out of the walk's output recovers the
hole-free input. -/
theorem gapsAfter_filter (L : Int) (ds : List Domain) :
    ∀ prev : Domain, (∀ d ∈ ds, d.type ≠ "hole") →
      (gapsAfter L prev ds).filter (fun d => d.type != "hole") = ds := by
  induction ds with
  | nil =>
    intro prev _
    unfold gapsAfter
    split <;> simp [holeDomain]
  | cons d ds ih =>
    intro prev h
    unfold gapsAfter
    rw [List.filter_append]
    have hd : (d.type != "hole") = true := by
      simpa using h d (List.mem_cons_self d ds)
    simp only [List.filter_cons_of_pos, hd]
    rw [ih d fun x hx => h x (List.mem_cons_of_mem _ hx)]
    split <;> simp [holeDomain]

/-- Filtering gap domains out of `fill_from`'s output recovers the
hole-free input. -/
theorem fill_from_filter (L : Int) (s : List Domain)
    (h : ∀ d ∈ s, d.type ≠ "hole") :
    (fill_from L s).filter (fun d => d.type != "hole") = s := by
  cases s with
  | nil => simp [fill_from, holeDomain]
  | cons d ds =>
    simp only [fill_from]
    rw [List.filter_append]
    have hd : (d.type != "hole") = true := by
      simpa using h d (List.mem_cons_self d ds)
    simp only [List.filter_cons_of_pos, hd]
    rw [gapsAfter_filter L ds d fun x hx => h x (List.mem_cons_of_mem _ hx)]
    split <;> simp [holeDomain]

/-- C8: `fill_holes` is idempotent — re-running it on an already
gap-filled, unmodified domain set reproduces exactly the same
domain-and-gap list, with no duplicated or altered gaps. -/
theorem c8_fill_holes_idempotent (L : Int) (domains : List Domain) :
    fill_holes L (fill_holes L domains) = fill_holes L domains := by
  unfold fill_holes
  have hns : ∀ d ∈ sortDomains (domains.filter (fun d => d.type != "hole")),
      d.type ≠ "hole" := by
    intro d hd
    unfold sortDomains at hd
    rw [List.mem_insertionSort] at hd
    simpa using List.of_mem_filter hd
  rw [fill_from_filter L _ hns]
  have hsorted : List.Sorted byStartD
      (sortDomains (domains.filter (fun d => d.type != "hole"))) :=
    List.sorted_insertionSort byStartD _
  conv_lhs => rw [sortDomains, hsorted.insertionSort_eq]

/-! ## The re-resolution pass of `RescueFamily.filter_domains`
(`src/core/rescue_family.py`, lines 119–134)

For each protein, for each index `i` with original domain `dom`, the code
walks `sorted_scores` (the globally ranked identity list): it breaks at
`dom`'s own identity; for any other identity it looks the identity up in
`sys.domain_map` (a `KeyError` skips it, embedded as an association-list
lookup defaulting to `[]`) and assigns `sys.domains[i]` to the first hit
of that identity overlapping `dom` under the default 0.2 threshold.  The
inner `break` leaves only the hit loop, not the identity walk, and the
overlap test keeps using the original `dom`, so the walk continues and a
later-ranked qualifying identity overwrites the slot again.  Only the
identities' rank order is consumed from the `(identity, score)` pairs of
`sorted_scores`, so the walk is embedded over the ranked identity list. -/

/-- The first hit of identity `best` in the protein's identity→hits index
that overlaps `d` under the default 0.2 mutual-overlap predicate
(`for curr_best in curr_bests: if is_overlap(dom, curr_best): ...`). -/
def first_overlap_hit (dmap : List (String × List Domain)) (d : Domain)
    (best : String) : Option Domain :=
  ((dmap.lookup best).getD []).find? (fun cb => is_overlap d cb (1/5))

/-- An identity qualifies for substitution against `d` when the protein
has a hit of that identity overlapping `d`. -/
def qualifies (dmap : List (String × List Domain)) (d : Domain)
    (best : String) : Bool :=
  (first_overlap_hit dmap d best).isSome

/-- The identity walk, threading the current value of `sys.domains[i]`:
break at `d`'s own identity, otherwise substitute the first overlapping
hit of the identity (if any) and continue with the next ranked
identity. -/
def resolve_step (dmap : List (String × List Domain)) (d : Domain) :
    List String → Domain → Domain
  | [], cur => cur
  | best :: rest, cur =>
    if d.dom_id = best then cur
    else
      match first_overlap_hit dmap d best with
      | some cb => resolve_step dmap d rest cb
      | none => resolve_step dmap d rest cur

/-- The full walk for one selected domain `D`, starting from `D`
itself. -/
def resolve_domain (scores : List String) (dmap : List (String × List Domain))
    (d : Domain) : Domain :=
  resolve_step dmap d scores d

/-- Modelled from the spec's words (C1 as stated): the walk stops at the
first identity in rank order for which the substitution condition holds,
or at `D`'s own identity, whichever comes first. -/
def resolve_claim_step (dmap : List (String × List Domain)) (d : Domain) :
    List String → Domain
  | [] => d
  | best :: rest =>
    if d.dom_id = best then d
    else
      match first_overlap_hit dmap d best with
      | some cb => cb
      | none => resolve_claim_step dmap d rest

/-- Modelled from the spec's words (C1 as stated): first qualifying
identity wins. -/
def resolve_domain_claim (scores : List String)
    (dmap : List (String × List Domain)) (d : Domain) : Domain :=
  resolve_claim_step dmap d scores

/-- C1 counterexample: ranked identities `A, B, X` with a selected domain
of identity `X` and overlapping hits for both `A` and `B`.  The claim
demands the first qualifying identity's hit (`A`), but the code's walk
continues past the substitution and the later-ranked `B` hit overwrites
it. -/
theorem c1_counterexample :
    resolve_domain ["A", "B", "X"]
        [("A", [⟨"A", 1, 100, 1, 1, none, "domain", none⟩]),
          ("B", [⟨"B", 1, 100, 1, 1, none, "domain", none⟩])]
        ⟨"X", 1, 100, 1, 1, none, "domain", none⟩ =
      ⟨"B", 1, 100, 1, 1, none, "domain", none⟩ ∧
    resolve_domain_claim ["A", "B", "X"]
        [("A", [⟨"A", 1, 100, 1, 1, none, "domain", none⟩]),
          ("B", [⟨"B", 1, 100, 1, 1, none, "domain", none⟩])]
        ⟨"X", 1, 100, 1, 1, none, "domain", none⟩ =
      ⟨"A", 1, 100, 1, 1, none, "domain", none⟩ ∧
    (⟨"A", 1, 100, 1, 1, none, "domain", none⟩ : Domain) ≠
      ⟨"B", 1, 100, 1, 1, none, "domain", none⟩ := by
  have hA : first_overlap_hit
      [("A", [⟨"A", 1, 100, 1, 1, none, "domain", none⟩]),
        ("B", [⟨"B", 1, 100, 1, 1, none, "domain", none⟩])]
      ⟨"X", 1, 100, 1, 1, none, "domain", none⟩ "A" =
      some ⟨"A", 1, 100, 1, 1, none, "domain", none⟩ := by
    norm_num [first_overlap_hit, List.lookup, is_overlap]
  have hB : first_overlap_hit
      [("A", [⟨"A", 1, 100, 1, 1, none, "domain", none⟩]),
        ("B", [⟨"B", 1, 100, 1, 1, none, "domain", none⟩])]
      ⟨"X", 1, 100, 1, 1, none, "domain", none⟩ "B" =
      some ⟨"B", 1, 100, 1, 1, none, "domain", none⟩ := by
    unfold first_overlap_hit
    rw [show List.lookup "B"
        [("A", [(⟨"A", 1, 100, 1, 1, none, "domain", none⟩ : Domain)]),
          ("B", [⟨"B", 1, 100, 1, 1, none, "domain", none⟩])] =
      some [⟨"B", 1, 100, 1, 1, none, "domain", none⟩] from rfl]
    norm_num [is_overlap]
  refine ⟨?_, ?_, by decide⟩
  · simp +decide [resolve_domain, resolve_step, hA, hB]
  · simp +decide [resolve_domain_claim, resolve_claim_step, hA]

/-- The walk computes, from any starting value, the first overlapping hit
of the last qualifying identity ranked before `d`'s own identity. -/
theorem resolve_step_characterization (dmap : List (String × List Domain))
    (d : Domain) (l : List String) : ∀ cur : Domain,
    resolve_step dmap d l cur =
      ((((l.takeWhile (fun b => !(d.dom_id == b))).reverse.find?
          (qualifies dmap d)).bind (first_overlap_hit dmap d)).getD cur) := by
  induction l with
  | nil => intro cur; simp [resolve_step]
  | cons best rest ih =>
    intro cur
    by_cases hid : d.dom_id = best
    · simp [resolve_step, if_pos hid, List.takeWhile_cons, hid]
    · have hp : (fun b => !(d.dom_id == b)) best = true := by
        simp [hid]
      cases hq : first_overlap_hit dmap d best with
      | some cb =>
        have hqb : qualifies dmap d best = true := by
          simp [qualifies, hq]
        simp only [resolve_step, if_neg hid, hq]
        rw [ih cb,
          List.takeWhile_cons_of_pos (p := fun b => !(d.dom_id == b)) hp,
          List.reverse_cons, List.find?_append]
        have hfb : List.find? (qualifies dmap d) [best] = some best := by
          simp [List.find?_cons, hqb]
        rw [hfb]
        cases hfront : (rest.takeWhile
            (fun b => !(d.dom_id == b))).reverse.find? (qualifies dmap d) with
        | some b' =>
          have hb' : qualifies dmap d b' = true := List.find?_some hfront
          obtain ⟨x, hx⟩ := Option.isSome_iff_exists.mp hb'
          simp [hx]
        | none =>
          simp [hq]
      | none =>
        have hqb : qualifies dmap d best = false := by
          simp [qualifies, hq]
        simp only [resolve_step, if_neg hid, hq]
        rw [ih cur,
          List.takeWhile_cons_of_pos (p := fun b => !(d.dom_id == b)) hp,
          List.reverse_cons, List.find?_append]
        have hfb : List.find? (qualifies dmap d) [best] = none := by
          simp [List.find?_cons, hqb]
        rw [hfb, Option.or_none]

/-- C1 (amended): per selected domain `D`, the walk does not stop at the
first qualifying identity — each qualifying identity ranked before `D`'s
own identity overwrites the slot in turn, so the final selection is the
first overlapping hit of the *last* identity, in descending rank order
before `D`'s own identity, that has an overlapping hit in the protein's
identity→hits index; `D` survives unchanged when no such identity
exists.  (The walk still stops at `D`'s own identity.) -/
theorem c1_resolution_last_qualifying (scores : List String)
    (dmap : List (String × List Domain)) (d : Domain) :
    resolve_domain scores dmap d =
      ((((scores.takeWhile (fun b => !(d.dom_id == b))).reverse.find?
          (qualifies dmap d)).bind (first_overlap_hit dmap d)).getD d) :=
  resolve_step_characterization dmap d scores d

/-! ## Embedding of `confidence_interval_mean` (`src/utils/file_utils.py`, lines
251–273) and the consensus architecture
(`FamilyVisualizer.plot_architecture`, which applies it componentwise to
the per-protein `(start/len, end/len)` pairs of a characteristic
identity). -/

/-- Embedding of `np.mean`: the arithmetic mean of the list. -/
def mean (coords : List ℚ) : ℚ := coords.sum / (coords.length : ℚ)

/-- Embedding of `confidence_interval_mean`: when `len(set(coords)) == 1`
(all values
identical) it returns `np.mean(coords)`; otherwise it returns the
midpoint of the two-sided Student confidence interval computed by
`scipy.stats.t.interval`.  The scipy computation is external library
code, embedded as the abstract parameter `tMid`. -/
def confidence_interval_mean (tMid : List ℚ → ℚ) (coords : List ℚ) : ℚ :=
  if coords.dedup.length = 1 then mean coords else tMid coords

theorem dedup_replicate_pos {n : ℕ} (a : ℚ) (hn : 0 < n) :
    (List.replicate n a).dedup = [a] := by
  induction n with
  | zero => omega
  | succ m ih =>
    rcases Nat.eq_zero_or_pos m with hm | hm
    · subst hm
      simp
    · rw [List.replicate_succ, List.dedup_cons_of_mem
        (by rw [List.mem_replicate]; exact ⟨hm.ne', rfl⟩), ih hm]

theorem mean_replicate {n : ℕ} (a : ℚ) (hn : 0 < n) :
    mean (List.replicate n a) = a := by
  unfold mean
  rw [List.sum_replicate, List.length_replicate, nsmul_eq_mul, mul_comm,
    mul_div_assoc, div_self (show (n : ℚ) ≠ 0 by exact_mod_cast hn.ne'),
    mul_one]

/-- C9: when every retained protein contributes the identical
`(start/len, end/len)` pair, the consensus interval — `ci-mean` applied
to the first components and to the second components — equals that
constant pair exactly: `confidence_interval_mean` returns the plain mean
(the constant itself) whenever all its inputs are identical, never the
Student-interval midpoint. -/
theorem c9_consensus_constant_pair (tMid : List ℚ → ℚ) (s e : ℚ)
    (pairs : List (ℚ × ℚ)) (hne : pairs ≠ [])
    (hall : ∀ p ∈ pairs, p = (s, e)) :
    confidence_interval_mean tMid (pairs.map Prod.fst) = s ∧
      confidence_interval_mean tMid (pairs.map Prod.snd) = e := by
  have hrep : pairs = List.replicate pairs.length (s, e) :=
    List.eq_replicate_length.mpr hall
  have hlen : 0 < pairs.length := List.length_pos.mpr hne
  constructor
  · rw [hrep, List.map_replicate]
    unfold confidence_interval_mean
    rw [dedup_replicate_pos _ (by simpa using hlen)]
    simp only [List.length_singleton, if_pos rfl]
    exact mean_replicate _ (by simpa using hlen)
  · rw [hrep, List.map_replicate]
    unfold confidence_interval_mean
    rw [dedup_replicate_pos _ (by simpa using hlen)]
    simp only [List.length_singleton, if_pos rfl]
    exact mean_replicate _ (by simpa using hlen)

/-- C9 witness: a single protein with the constant pair `(3, 7)`. -/
theorem c9_witness :
    confidence_interval_mean (fun _ => 0) [(3 : ℚ)] = 3 ∧
      confidence_interval_mean (fun _ => 0) [(7 : ℚ)] = 7 :=
  c9_consensus_constant_pair (fun _ => 0) 3 7 [((3 : ℚ), (7 : ℚ))]
    (List.cons_ne_nil _ _) (by simp)

end TCDB
